import Mathlib

/-!
Shallow embedding of the `envelopes` budget tracker, centred on the newest
DB layer (type `Event`, type `Envelope`, `envelopeWithTx`, `MergeEvent`,
`UpdateEnvelopeMeta`, `UpdateEnvelopeBalance`, `Spread`, `AllEnvelopes`)
and on the peer manager (`Friend.HandleMessage` and the inbound dispatch
loop of `PeerManager.Loop` in pm.go).

Modelling conventions:
* `uuid.UUID` is modelled as `Nat`; `uuid.New()` is modelled as a fresh
  identifier not present as a key of the history table (`freshId`).
* The two SQL tables are association lists keyed by their primary key
  column; a plain `INSERT` fails exactly when the key is already present.
* SQLite transactions: every operation returns the committed store; a
  rolled-back transaction leaves the caller's store untouched, so failing
  operations return the original store together with `false`.
* `float64` values in `Spread` are modelled exactly: a double is a
  significand–exponent pair `F64` (value `m · 2^e`), and each operation
  rounds its exact result to 53 significant bits, to nearest, ties to
  even (`fnormInt`, `fmul`, `fdiv`) — IEEE binary64 arithmetic throughout
  the normal range, which covers every amount the program computes; Go's
  `int(x)` conversion is truncation toward zero (`ftrunc`).
* Wall clocks (`datetime('now')` of the SQL engine and `time.Now()` of the
  process) are passed in as explicit string parameters.
-/

namespace Envelopes

/-- The `Event` struct of the DB layer (values in Euro-cents). -/
structure Event where
  envelopeId : Nat
  id : Nat
  date : String
  name : String
  balance : Int
  target : Int
  monthTarget : Int
  deleted : Bool
  comment : String
  deriving Repr, DecidableEq

/-- The `Envelope` struct of the DB layer (values in Euro-cents). -/
structure Envelope where
  id : Nat
  balance : Int
  target : Int
  name : String
  monthDelta : Int
  monthTarget : Int
  deriving Repr, DecidableEq

/-- One row of the `envelopes` table, minus the `id` primary-key column. -/
structure EnvRow where
  name : String
  balance : Int
  target : Int
  monthtarget : Int
  deleted : Bool
  deriving Repr, DecidableEq

/-- One row of the `history` table, minus the `id` primary-key column. -/
structure HistRow where
  envelope : Nat
  date : String
  name : String
  balance : Int
  target : Int
  monthtarget : Int
  deleted : Bool
  comment : String
  deriving Repr, DecidableEq

/-- The persistent state of the sqlite file: the two tables, each keyed by
its primary key. -/
structure Store where
  envelopes : List (Nat × EnvRow)
  history : List (Nat × HistRow)
  deriving Repr, DecidableEq

/-- `SELECT ... WHERE id = k`: the first row keyed `k`, if any. -/
def lookupRow {α : Type} : List (Nat × α) → Nat → Option α
  | [], _ => none
  | p :: t, k => if p.1 = k then some p.2 else lookupRow t k

/-- Whether the table has a row with primary key `k`. -/
def hasKey {α : Type} (t : List (Nat × α)) (k : Nat) : Bool :=
  (lookupRow t k).isSome

/-- `UPDATE ... WHERE id = k`: replace the row(s) keyed `k` by `v`. -/
def updateRow {α : Type} : List (Nat × α) → Nat → α → List (Nat × α)
  | [], _, _ => []
  | p :: t, k, v => (if p.1 = k then (k, v) else p) :: updateRow t k v

/-- The zero-valued envelope row inserted by the lazy materialization in
`envelopeWithTx` (`VALUES ($1, "", 0, 0, 0, 'false')`). -/
def blankRow : EnvRow :=
  { name := "", balance := 0, target := 0, monthtarget := 0, deleted := false }

/-- `uuid.New()` modelled as a deterministic fresh identifier: one larger
than every key of the history table. -/
def freshId (s : Store) : Nat :=
  (s.history.map Prod.fst).foldr max 0 + 1

/-- `envelopeWithTx`: select the row `WHERE id = $1 AND not deleted`; on a
scan error fall through to `INSERT` of a blank row with the same primary
key. `none` models the failure path (the insert hits the primary key when
the row exists but is deleted); otherwise the projected envelope and the
transaction state are returned. -/
def DB.envelopeWithTx (s : Store) (id : Nat) : Option (Envelope × Store) :=
  match lookupRow s.envelopes id with
  | some r =>
    if r.deleted then
      none
    else
      some ({ id := id, balance := r.balance, target := r.target, name := r.name,
              monthDelta := 0, monthTarget := r.monthtarget }, s)
  | none =>
    some ({ id := id, balance := 0, target := 0, name := "",
            monthDelta := 0, monthTarget := 0 },
          { s with envelopes := s.envelopes ++ [(id, blankRow)] })

/-- `DB.Envelope`: runs `envelopeWithTx` in a transaction that is always
rolled back (`defer tx.Rollback()` with no commit), so the store is never
modified. -/
def DB.Envelope (s : Store) (id : Nat) : Option Envelope :=
  (DB.envelopeWithTx s id).map Prod.fst

/-- The history row `MergeEvent` inserts for event `e`: every column is
taken from the event except `date`, which is stamped with the SQL
engine's `datetime('now')`. -/
def histOf (e : Event) (dbNow : String) : HistRow :=
  { envelope := e.envelopeId, date := dbNow, name := e.name,
    balance := e.balance, target := e.target, monthtarget := e.monthTarget,
    deleted := e.deleted, comment := e.comment }

/-- `MergeEvent`: look up (or lazily create) the envelope, `INSERT` the
event into history stamped with `datetime('now')` (the `dbNow` argument;
the event's own `date` field is not used), then `UPDATE` the envelope row
with the added deltas, the (possibly substituted) name and the event's
`deleted` flag. Any failure rolls the transaction back, returning the
original store with `false`. -/
def DB.MergeEvent (s : Store) (dbNow : String) (e : Event) : Store × Bool :=
  match DB.envelopeWithTx s e.envelopeId with
  | none => (s, false)
  | some (env, s1) =>
    if hasKey s1.history e.id then
      (s, false)
    else
      let s2 : Store :=
        { s1 with history := s1.history ++ [(e.id, histOf e dbNow)] }
      let newName := if e.name = "" then env.name else e.name
      let newRow : EnvRow :=
        { name := newName, balance := env.balance + e.balance,
          target := env.target + e.target,
          monthtarget := env.monthTarget + e.monthTarget,
          deleted := e.deleted }
      ({ s2 with envelopes := updateRow s2.envelopes e.envelopeId newRow }, true)

/-- `UpdateEnvelopeMeta` (the `ApplyLocalMetaChange` operation): fetch the
current projection; when the name is unchanged and both *parameters* are
zero return without doing anything; otherwise construct the delta event,
offer it to the events channel and merge it. The constructed event (if
any) is returned alongside the store for observability of the claim. -/
def DB.UpdateEnvelopeMeta (s : Store) (goNow dbNow : String) (id : Nat)
    (name : String) (newTarget newMonthTarget : Int) :
    Store × Option Event × Bool :=
  match DB.Envelope s id with
  | none => (s, none, false)
  | some env =>
    if name = env.name ∧ newTarget = 0 ∧ newMonthTarget = 0 then
      (s, none, true)
    else
      let evt : Event :=
        { envelopeId := env.id, id := freshId s, date := goNow, name := name,
          balance := 0, target := newTarget - env.target,
          monthTarget := newMonthTarget - env.monthTarget,
          deleted := false, comment := "" }
      let (s', ok) := DB.MergeEvent s dbNow evt
      (s', some evt, ok)

/-- `UpdateEnvelopeBalance` (the `ApplyLocalBalanceChange` operation):
construct a balance-delta event carrying the current name and the comment,
offer it, merge it. -/
def DB.UpdateEnvelopeBalance (s : Store) (goNow dbNow : String) (id : Nat)
    (dBalance : Int) (comment : String) : Store × Bool :=
  match DB.Envelope s id with
  | none => (s, false)
  | some env =>
    DB.MergeEvent s dbNow
      { envelopeId := env.id, id := freshId s, date := goNow, name := env.name,
        balance := dBalance, target := 0, monthTarget := 0,
        deleted := false, comment := comment }

/-- `DeleteEnvelope` (the `ApplyDelete` operation): construct a
`deleted = true` event, offer it, merge it. -/
def DB.DeleteEnvelope (s : Store) (goNow dbNow : String) (id : Nat) :
    Store × Bool :=
  DB.MergeEvent s dbNow
    { envelopeId := id, id := freshId s, date := goNow, name := "",
      balance := 0, target := 0, monthTarget := 0,
      deleted := true, comment := "" }

/-- `AllEnvelopes`: all non-deleted envelope rows joined with the sum of
history `balance` entries of the current month. Membership of a stored
date string in the current month (`date > DATE('now','start of month')`)
is abstracted by the `inMonth` predicate. -/
def DB.AllEnvelopes (s : Store) (inMonth : String → Bool) :
    List Envelopes.Envelope :=
  (s.envelopes.filter (fun p => !p.2.deleted)).map (fun p =>
    { id := p.1, balance := p.2.balance, target := p.2.target,
      name := p.2.name,
      monthDelta := ((s.history.filter
        (fun h => h.2.envelope == p.1 && inMonth h.2.date)).map
          (fun h => h.2.balance)).sum,
      monthTarget := p.2.monthtarget })

/-- Toward-zero division of integers (`/` on `ℤ` is Euclidean division,
hence floor division for positive `d`). -/
def truncDiv (n d : Int) : Int :=
  if 0 ≤ n then n / d else -(-n / d)

/-- Fuel-driven `⌊log2 n⌋` for `n ≥ 1` (and `0` for `n = 0`); the fuel
only bounds the number of halvings, so `n` itself always suffices. -/
def log2p : Nat → Nat → Nat
  | 0, _ => 0
  | fuel + 1, n => if 2 ≤ n then log2p fuel (n / 2) + 1 else 0

/-- `⌊log2 n⌋` for `n ≥ 1`: one less than the bit length. -/
def ilog2 (n : Nat) : Nat := log2p n n

/-- An IEEE binary64 value, represented exactly: the pair `(m, e)` stands
for `m · 2^e`.  Each operation below rounds its exact result to 53
significant bits, to nearest, ties to even — IEEE binary64 arithmetic
throughout the normal range, which covers every cent amount the program
computes (overflow and subnormals are out of reach). -/
structure F64 where
  m : Int
  e : Int
  deriving Repr, DecidableEq

/-- The integer nearest to `a / b` for `b > 0`, ties going to the even
neighbour (round half to even), computed with exact remainders. -/
def rnEven (a b : Int) : Int :=
  let q := a / b
  let r := a - q * b
  if 2 * r < b then q
  else if b < 2 * r then q + 1
  else if q % 2 = 0 then q else q + 1

/-- Round the exact value `m · 2^e` to 53 significant bits, to nearest,
ties to even: the binary64 result of an operation whose exact value is
`m · 2^e`. -/
def fnormInt (m : Int) (e : Int) : F64 :=
  if m = 0 then ⟨0, 0⟩
  else
    let a := m.natAbs
    let b := ilog2 a
    if b ≤ 52 then ⟨m, e⟩
    else ⟨m.sign * rnEven (a : Int) (2 ^ (b - 52)), e + (b - 52)⟩

/-- Go's `float64(n)` conversion of an integer: exact below `2^53`,
rounded to nearest (ties to even) above. -/
def fofInt (n : Int) : F64 := fnormInt n 0

/-- Binary64 multiplication: the exact product, rounded to 53 bits. -/
def fmul (x y : F64) : F64 := fnormInt (x.m * y.m) (x.e + y.e)

/-- Decides `2^c ≤ a / b` by exact integer comparison. -/
def pow2le (c : Int) (a b : Nat) : Bool :=
  if 0 ≤ c then decide (b * 2 ^ c.toNat ≤ a)
  else decide (b ≤ a * 2 ^ (-c).toNat)

/-- Binary64 division: the exact quotient, rounded to 53 bits.  The
rounding position comes from `e0 = ⌊log2 (a / b)⌋`, obtained from the two
bit lengths and one exact comparison; the significand is the exact
quotient scaled to `[2^52, 2^53)` and rounded half to even.  A zero
divisor yields `0` here where IEEE yields an infinity, so the amount
claims about `Spread` assume a positive total month target. -/
def fdiv (x y : F64) : F64 :=
  if x.m = 0 ∨ y.m = 0 then ⟨0, 0⟩
  else
    let a := x.m.natAbs
    let b := y.m.natAbs
    let c : Int := (ilog2 a : Int) - (ilog2 b : Int)
    let e0 : Int := if pow2le c a b then c else c - 1
    let mag : Int :=
      if e0 ≤ 52 then rnEven ((a : Int) * 2 ^ (52 - e0).toNat) (b : Int)
      else rnEven (a : Int) ((b : Int) * 2 ^ (e0 - 52).toNat)
    ⟨x.m.sign * y.m.sign * mag, x.e - y.e + (e0 - 52)⟩

/-- Binary64 negation: exact (a sign-bit flip). -/
def fneg (x : F64) : F64 := ⟨-x.m, x.e⟩

/-- Go's `int(x)` conversion of a `float64`: truncation toward zero. -/
def ftrunc (x : F64) : Int :=
  if 0 ≤ x.e then x.m * 2 ^ x.e.toNat
  else truncDiv x.m (2 ^ (-x.e).toNat)

/-- The loop body of `Spread`: for each envelope of the initial snapshot
other than the source and with a non-zero month target, credit
`int(amount)` of the double `amount = float64(srcBalance) * pct` with
`pct = float64(e.MonthTarget) / float64(total)` to it and debit
`int(-amount)` from the source, stopping at the first failed update
(partial updates stay committed). `srcBalance`, `srcName` and `total` are
the values captured before the loop. -/
def DB.spreadLoop (goNow dbNow : String) (id : Nat) (srcBalance : Int)
    (srcName : String) (total : Int) :
    Store → List Envelopes.Envelope → Store × Bool
  | s, [] => (s, true)
  | s, e :: rest =>
    if e.id == id || e.monthTarget == 0 then
      DB.spreadLoop goNow dbNow id srcBalance srcName total s rest
    else
      let pct : F64 := fdiv (fofInt e.monthTarget) (fofInt total)
      let amount : F64 := fmul (fofInt srcBalance) pct
      let (s1, ok1) := DB.UpdateEnvelopeBalance s goNow dbNow e.id
        (ftrunc amount) ("Spread from " ++ srcName)
      if ok1 then
        let (s2, ok2) := DB.UpdateEnvelopeBalance s1 goNow dbNow id
          (ftrunc (fneg amount)) ("Spread to " ++ e.name)
        if ok2 then
          DB.spreadLoop goNow dbNow id srcBalance srcName total s2 rest
        else
          (s2, false)
      else
        (s1, false)

/-- `Spread`: snapshot the non-deleted envelopes and the source envelope,
compute the total month target over the others, then run the loop. -/
def DB.Spread (s : Store) (goNow dbNow : String) (inMonth : String → Bool)
    (id : Nat) : Store × Bool :=
  let es := DB.AllEnvelopes s inMonth
  match DB.Envelope s id with
  | none => (s, false)
  | some toSpread =>
    let total := ((es.filter (fun e => e.id != id)).map
      (fun e => e.monthTarget)).sum
    DB.spreadLoop goNow dbNow id toSpread.balance toSpread.name total s es

/-- Rounding to the nearest integer, the `round(...)` function the spec
uses to describe `Spread` (modelled from the spec, for comparison with the
code's truncation). -/
def roundQ (x : ℚ) : Int := ⌊x + 1 / 2⌋

/-- The projected balance of an envelope row (0 when the row is absent). -/
def balOf (s : Store) (id : Nat) : Int :=
  match lookupRow s.envelopes id with
  | some r => r.balance
  | none => 0

/-- The `(balance, target, monthTarget)` projection of an envelope row
(all zero when the row is absent). -/
def projTriple (s : Store) (id : Nat) : Int × Int × Int :=
  match lookupRow s.envelopes id with
  | some r => (r.balance, r.target, r.monthtarget)
  | none => (0, 0, 0)

/-- Whether merging may look up the envelope: the row is absent (lazy
creation applies) or present and not deleted. -/
def envOk (s : Store) (id : Nat) : Bool :=
  match lookupRow s.envelopes id with
  | some r => !r.deleted
  | none => true

/-- The sum of the `balance` column over all rows of the `envelopes`
table. -/
def sumBal (s : Store) : Int :=
  (s.envelopes.map (fun p => p.2.balance)).sum

/-- The componentwise sum of the `(balance, target, monthTarget)` deltas
of the events of `l` whose `envelopeId` is `id`. -/
def sumDeltas (l : List Event) (id : Nat) : Int × Int × Int :=
  ((l.filter (fun ev => ev.envelopeId == id)).map
    (fun ev => (ev.balance, ev.target, ev.monthTarget))).sum

/-- Merging a list of events one at a time with `MergeEvent`, continuing
past failures (as the replication path does: merge errors are logged and
the next event is still merged); the flag records whether every merge
succeeded. -/
def mergeList (dbNow : String) : Store → List Event → Store × Bool
  | s, [] => (s, true)
  | s, e :: rest =>
    let (s1, ok1) := DB.MergeEvent s dbNow e
    let (s2, ok2) := mergeList dbNow s1 rest
    (s2, ok1 && ok2)

/-! ### Peer manager (pm.go) -/

/-- The `BusMessage` wire struct. -/
structure BusMessage where
  From : String
  To : String
  Seq : Int
  Cmd : String
  Payload : String
  deriving Repr, DecidableEq

/-- The mutable state of a `Friend` (the `pm` back-pointer is modelled by
passing the peer-manager state explicitly). `lastSeen` is an abstract
clock tick. -/
structure Friend where
  name : String
  msg : Option BusMessage
  lastSeen : Nat
  deriving Repr, DecidableEq

/-- `NewFriend`: no message yet, `lastSeen` initialised to the current
time. -/
def NewFriend (name : String) (now : Nat) : Friend :=
  { name := name, msg := none, lastSeen := now }

/-- `Friend.HandleMessage`, restricted to the per-friend state: under the
friend's lock, return early when a message has been seen and its sequence
number is at least the incoming one; otherwise store the message, refresh
`lastSeen` and report acceptance (the command dispatch switch runs exactly
when the result flag is `true`). -/
def Friend.handleMessage (f : Friend) (now : Nat) (m : BusMessage) :
    Friend × Bool :=
  match f.msg with
  | some prev =>
    if m.Seq ≤ prev.Seq then (f, false)
    else ({ f with msg := some m, lastSeen := now }, true)
  | none => ({ f with msg := some m, lastSeen := now }, true)

/-- Feeding a list of timed messages to a friend, keeping only the final
state. -/
def Friend.handleAll (f : Friend) : List (Nat × BusMessage) → Friend
  | [] => f
  | p :: rest => Friend.handleAll (f.handleMessage p.1 p.2).1 rest

/-- Assoc-list lookup keyed by strings (the `friends` / `oldfriends`
maps). -/
def lookupStr {α : Type} : List (String × α) → String → Option α
  | [], _ => none
  | p :: t, k => if p.1 = k then some p.2 else lookupStr t k

/-- Write a friend's state back under its nick. -/
def updateStr {α : Type} : List (String × α) → String → α → List (String × α)
  | [], _, _ => []
  | p :: t, k, v => (if p.1 = k then (k, v) else p) :: updateStr t k v

/-- The peer-manager state touched by the inbound dispatch task. -/
structure PMState where
  nick : String
  sequence : Int
  friends : List (String × Friend)
  oldfriends : List (String × Friend)
  needFullSync : Bool
  db : Store
  deriving Repr, DecidableEq

/-- One round of the inbound dispatch goroutine of `PeerManager.Loop` for
a received message `m`: drop own messages and messages addressed
elsewhere; under the write lock look up the friend by sender, creating it
(and arming `needFullSync`) when absent; call `Friend.HandleMessage`,
whose command switch merges decoded `event` payloads into the store and
arms `needFullSync` on `hello`; finally `Publish` a hello to a new friend
(which increments the sequence counter). JSON decoding of event payloads
is abstracted by `decode`. -/
def dispatchStep (decode : String → Event) (pm : PMState) (now : Nat)
    (dbNow : String) (m : BusMessage) : PMState :=
  if m.From = pm.nick then pm
  else if m.To ≠ pm.nick ∧ m.To ≠ "*" then pm
  else
    let found := lookupStr pm.friends m.From
    let f := found.getD (NewFriend m.From now)
    let isNew := found.isNone
    let pm1 :=
      if isNew then
        { pm with friends := pm.friends ++ [(m.From, f)],
                  needFullSync := true }
      else pm
    let fh := Friend.handleMessage f now m
    let pm2 :=
      { pm1 with
        friends := updateStr pm1.friends m.From fh.1,
        db := if fh.2 && (m.Cmd == "event") then
                (DB.MergeEvent pm1.db dbNow (decode m.Payload)).1
              else pm1.db,
        needFullSync := pm1.needFullSync || (fh.2 && (m.Cmd == "hello")) }
    if isNew then { pm2 with sequence := pm2.sequence + 1 } else pm2

/-- The store produced by a successful `UpdateEnvelopeBalance` of `δ` on
an envelope whose current row is `r`: one appended history row and the
balance column bumped. -/
def updBalStore (s : Store) (dn : String) (k : Nat) (δ : Int) (c : String)
    (r : EnvRow) : Store :=
  ⟨updateRow s.envelopes k { r with balance := r.balance + δ },
   s.history ++ [(freshId s,
     { envelope := k, date := dn, name := r.name, balance := δ,
       target := 0, monthtarget := 0, deleted := false, comment := c })]⟩

/-- The non-balance columns of an envelope row; `Spread` changes only
balances, so these are preserved by every update it issues. -/
def rowShape (r : EnvRow) : String × Int × Int × Bool :=
  (r.name, r.target, r.monthtarget, r.deleted)

/-- The net balance change `spreadLoop` applies to envelope `x` while
walking the snapshot list: every envelope other than the source with a
non-zero month target receives the truncated proportional share and the
same amount is debited from the source. -/
def spreadDelta (B T : Int) (src : Nat) : List Envelope → Nat → Int
  | [], _ => 0
  | e :: rest, x =>
    (if e.id = src ∨ e.monthTarget = 0 then 0
     else
       (if x = e.id then ftrunc (fmul (fofInt B) (fdiv (fofInt e.monthTarget) (fofInt T)))
        else 0) +
       (if x = src then -ftrunc (fmul (fofInt B) (fdiv (fofInt e.monthTarget) (fofInt T)))
        else 0)) +
    spreadDelta B T src rest x

/-- The denominator `Spread` computes: the total month target over the
non-deleted envelopes other than the source. -/
def spreadTotal (s : Store) (inMonth : String → Bool) (src : Nat) : Int :=
  (((DB.AllEnvelopes s inMonth).filter (fun e => e.id != src)).map
    (fun e => e.monthTarget)).sum

/-! ### Concrete fixtures used by witnesses and counterexamples -/

/-- The empty store (freshly created database). -/
def sEmpty : Store := ⟨[], []⟩

/-- A concrete event that already carries a date. -/
def evC1 : Event :=
  { envelopeId := 1, id := 10, date := "2026-01-01", name := "Rent",
    balance := 5, target := 0, monthTarget := 0, deleted := false,
    comment := "" }

/-- A store whose envelope 1 is tombstoned. -/
def sDel : Store :=
  ⟨[(1, { name := "X", balance := 7, target := 0, monthtarget := 0,
          deleted := true })], []⟩

/-- A fresh event aimed at envelope 1. -/
def evC3 : Event :=
  { envelopeId := 1, id := 11, date := "", name := "", balance := 5,
    target := 0, monthTarget := 0, deleted := false, comment := "" }

/-- A store whose envelope 1 has a non-zero target. -/
def sC4 : Store :=
  ⟨[(1, { name := "A", balance := 0, target := 500, monthtarget := 0,
          deleted := false })], []⟩

/-- A spread scenario: source 0 holds 1000 cents; envelopes 1, 2, 3 have
month targets 10, 20, 30. -/
def sM : Store :=
  ⟨[(0, { name := "S", balance := 1000, target := 0, monthtarget := 0,
          deleted := false }),
    (1, { name := "A", balance := 0, target := 0, monthtarget := 10,
          deleted := false }),
    (2, { name := "B", balance := 0, target := 0, monthtarget := 20,
          deleted := false }),
    (3, { name := "C", balance := 0, target := 0, monthtarget := 30,
          deleted := false })], []⟩

/-- Two distinct fresh events on the same envelope, for the
order-independence witness. -/
def evA : Event :=
  { envelopeId := 1, id := 21, date := "", name := "", balance := 3,
    target := 1, monthTarget := 2, deleted := false, comment := "" }

/-- See `evA`. -/
def evB : Event :=
  { envelopeId := 1, id := 22, date := "", name := "", balance := -1,
    target := 4, monthTarget := 0, deleted := false, comment := "" }

/-- A heartbeat-style message from peer `bob` with sequence 1. -/
def mA : BusMessage :=
  { From := "bob", To := "*", Seq := 1, Cmd := "status", Payload := "" }

/-- A replayed message from `bob` with the same sequence 1. -/
def mB : BusMessage :=
  { From := "bob", To := "*", Seq := 1, Cmd := "status", Payload := "x" }

/-- A later message from `bob` with sequence 2. -/
def mC : BusMessage :=
  { From := "bob", To := "*", Seq := 2, Cmd := "status", Payload := "" }

/-- A peer-manager state that remembers `bob` only as an old friend. -/
def pmC8 : PMState :=
  { nick := "me", sequence := 0, friends := [],
    oldfriends := [("bob", NewFriend "bob" 0)], needFullSync := false,
    db := sEmpty }

/-! ### Association-list table lemmas -/

theorem lookupRow_eq_none {α : Type} {t : List (Nat × α)} {k : Nat} :
    lookupRow t k = none ↔ hasKey t k = false := by
  simp [hasKey, Option.isSome_iff_ne_none]

theorem hasKey_true_iff {α : Type} {t : List (Nat × α)} {k : Nat} :
    hasKey t k = true ↔ ∃ v, lookupRow t k = some v := by
  simp [hasKey, Option.isSome_iff_exists]

theorem lookupRow_append_self {α : Type} {t : List (Nat × α)} {k : Nat}
    (v : α) (h : hasKey t k = false) :
    lookupRow (t ++ [(k, v)]) k = some v := by
  induction t with
  | nil => simp [lookupRow]
  | cons p t ih =>
    by_cases hp : p.1 = k
    · simp [hasKey, lookupRow, hp] at h
    · simp only [List.cons_append, lookupRow, hp, if_false]
      exact ih (by simpa [hasKey, lookupRow, hp] using h)

theorem lookupRow_append_ne {α : Type} {t : List (Nat × α)} {k x : Nat}
    (v : α) (h : x ≠ k) :
    lookupRow (t ++ [(k, v)]) x = lookupRow t x := by
  induction t with
  | nil => simp [lookupRow, Ne.symm h]
  | cons p t ih =>
    by_cases hp : p.1 = x
    · simp [lookupRow, hp]
    · simpa [lookupRow, hp] using ih

theorem hasKey_append {α : Type} (t : List (Nat × α)) (k x : Nat) (v : α) :
    hasKey (t ++ [(k, v)]) x = (hasKey t x || x == k) := by
  induction t with
  | nil =>
    by_cases hk : k = x
    · simp [hasKey, lookupRow, hk]
    · simp [hasKey, lookupRow, hk, Ne.symm hk]
  | cons p t ih =>
    by_cases hp : p.1 = x
    · simp [hasKey, lookupRow, hp]
    · simpa [hasKey, lookupRow, hp] using ih

theorem updateRow_of_hasKey_false {α : Type} {t : List (Nat × α)} {k : Nat}
    (v : α) (h : hasKey t k = false) : updateRow t k v = t := by
  induction t with
  | nil => rfl
  | cons p t ih =>
    by_cases hp : p.1 = k
    · simp [hasKey, lookupRow, hp] at h
    · simp only [updateRow, hp, if_false]
      rw [ih (by simpa [hasKey, lookupRow, hp] using h)]

theorem lookupRow_updateRow_self {α : Type} {t : List (Nat × α)} {k : Nat}
    (v : α) (h : hasKey t k = true) :
    lookupRow (updateRow t k v) k = some v := by
  induction t with
  | nil => simp [hasKey, lookupRow] at h
  | cons p t ih =>
    by_cases hp : p.1 = k
    · simp [lookupRow, updateRow, hp]
    · simp only [updateRow, hp, if_false, lookupRow]
      exact ih (by simpa [hasKey, lookupRow, hp] using h)

theorem lookupRow_updateRow_ne {α : Type} {t : List (Nat × α)} {k x : Nat}
    (v : α) (h : x ≠ k) :
    lookupRow (updateRow t k v) x = lookupRow t x := by
  induction t with
  | nil => rfl
  | cons p t ih =>
    by_cases hp : p.1 = k
    · simp only [updateRow, hp, if_true, lookupRow, Ne.symm h, if_false]
      simpa [lookupRow, hp, h, Ne.symm h] using ih
    · by_cases hpx : p.1 = x
      · simp [lookupRow, updateRow, hp, hpx, h]
      · simpa [lookupRow, updateRow, hp, hpx] using ih

theorem hasKey_updateRow {α : Type} (t : List (Nat × α)) (k x : Nat) (v : α) :
    hasKey (updateRow t k v) x = hasKey t x := by
  induction t with
  | nil => rfl
  | cons p t ih =>
    by_cases hp : p.1 = k
    · by_cases hx : x = k
      · simp [hasKey, lookupRow, updateRow, hp, hx]
      · have hpx : ¬p.1 = x := fun hc => hx (by rw [← hc, hp])
        simpa [hasKey, lookupRow, updateRow, hp, hx, Ne.symm hx, hpx] using ih
    · by_cases hpx : p.1 = x
      · have hxk : ¬x = k := fun hc => hp (by rw [hpx, hc])
        simp [hasKey, lookupRow, updateRow, hp, hpx, hxk]
      · simpa [hasKey, lookupRow, updateRow, hp, hpx] using ih

theorem keys_updateRow {α : Type} (t : List (Nat × α)) (k : Nat) (v : α) :
    (updateRow t k v).map Prod.fst = t.map Prod.fst := by
  induction t with
  | nil => rfl
  | cons p t ih =>
    by_cases hp : p.1 = k
    · simpa [updateRow, hp] using ih
    · simpa [updateRow, hp] using ih

theorem mem_le_foldr_max (l : List Nat) : ∀ x ∈ l, x ≤ l.foldr max 0 := by
  induction l with
  | nil => simp
  | cons a l ih =>
    intro x hx
    rcases List.mem_cons.mp hx with h | h
    · simp [h, le_max_left a (l.foldr max 0)]
    · exact le_trans (ih x h) (le_max_right a (l.foldr max 0))

theorem lookupRow_mem {α : Type} {t : List (Nat × α)} {k : Nat} {v : α}
    (h : lookupRow t k = some v) : (k, v) ∈ t := by
  induction t with
  | nil => simp [lookupRow] at h
  | cons p t ih =>
    by_cases hp : p.1 = k
    · simp only [lookupRow, hp, if_true, Option.some.injEq] at h
      exact List.mem_cons.mpr (Or.inl (by rw [← hp, ← h]))
    · exact List.mem_cons.mpr (Or.inr (ih (by simpa [lookupRow, hp] using h)))

theorem envOk_of_lookup_none {s : Store} {id : Nat}
    (h : lookupRow s.envelopes id = none) : envOk s id = true := by
  simp [envOk, h]

theorem envOk_of_lookup_not_deleted {s : Store} {id : Nat} {r : EnvRow}
    (h : lookupRow s.envelopes id = some r) (hdel : r.deleted = false) :
    envOk s id = true := by
  simp [envOk, h, hdel]

/-- A merge whose event id already occurs in the history table rolls back
and fails, whatever else the store contains. -/
theorem mergeEvent_dup {s : Store} {dbNow : String} {e : Event}
    (h : hasKey s.history e.id = true) :
    DB.MergeEvent s dbNow e = (s, false) := by
  unfold DB.MergeEvent DB.envelopeWithTx
  cases hcase : lookupRow s.envelopes e.envelopeId with
  | none => simp [h]
  | some r =>
    by_cases hdel : r.deleted
    · simp [hcase, hdel]
    · simp [hcase, hdel, h]

/-- A merge of an event aimed at a tombstoned envelope fails: the filtered
lookup misses and the re-insert of the existing primary key fails, rolling
the transaction back. -/
theorem mergeEvent_deleted {s : Store} {dbNow : String} {e : Event} {r : EnvRow}
    (h : lookupRow s.envelopes e.envelopeId = some r)
    (hdel : r.deleted = true) :
    DB.MergeEvent s dbNow e = (s, false) := by
  unfold DB.MergeEvent DB.envelopeWithTx
  simp [h, hdel]

/-- Characterization of a successful merge: when the event id is fresh and
the envelope row is absent or not deleted, the merge succeeds, appends
exactly one history row (stamped with the merging clock), adds the three
deltas to the envelope's projection, stores the event's `deleted` flag,
and touches no other row of either table. -/
theorem mergeEvent_ok (s : Store) (dbNow : String) (e : Event)
    (hfresh : hasKey s.history e.id = false)
    (henv : envOk s e.envelopeId = true) :
    ∃ s', DB.MergeEvent s dbNow e = (s', true) ∧
      (∀ x, x ≠ e.envelopeId →
        lookupRow s'.envelopes x = lookupRow s.envelopes x) ∧
      projTriple s' e.envelopeId =
        projTriple s e.envelopeId + (e.balance, e.target, e.monthTarget) ∧
      (∃ r', lookupRow s'.envelopes e.envelopeId = some r' ∧
        r'.deleted = e.deleted) ∧
      s'.history = s.history ++ [(e.id, histOf e dbNow)] ∧
      (∀ x, hasKey s'.envelopes x =
        (hasKey s.envelopes x || x == e.envelopeId)) := by
  cases hcase : lookupRow s.envelopes e.envelopeId with
  | some r =>
    have hdel : r.deleted = false := by
      simpa [envOk, hcase] using henv
    have hkey : hasKey s.envelopes e.envelopeId = true := by
      simp [hasKey, hcase]
    have hmerge : DB.MergeEvent s dbNow e =
        (⟨updateRow s.envelopes e.envelopeId
            { name := if e.name = "" then r.name else e.name,
              balance := r.balance + e.balance,
              target := r.target + e.target,
              monthtarget := r.monthtarget + e.monthTarget,
              deleted := e.deleted },
          s.history ++ [(e.id, histOf e dbNow)]⟩, true) := by
      unfold DB.MergeEvent DB.envelopeWithTx
      simp [hcase, hdel, hfresh]
    refine ⟨_, hmerge, ?_, ?_, ?_, ?_, ?_⟩
    · intro x hx
      exact lookupRow_updateRow_ne _ hx
    · simp only [projTriple, lookupRow_updateRow_self _ hkey, hcase]
      simp [Prod.ext_iff]
    · exact ⟨_, lookupRow_updateRow_self _ hkey, rfl⟩
    · rfl
    · intro x
      by_cases hx : x = e.envelopeId
      · simp [hasKey_updateRow, hx, hkey]
      · simp [hasKey_updateRow, hx]
  | none =>
    have hkey : hasKey s.envelopes e.envelopeId = false :=
      lookupRow_eq_none.mp hcase
    have hkey' : hasKey (s.envelopes ++ [(e.envelopeId, blankRow)])
        e.envelopeId = true := by
      simp [hasKey_append, hkey]
    have hmerge : DB.MergeEvent s dbNow e =
        (⟨updateRow (s.envelopes ++ [(e.envelopeId, blankRow)]) e.envelopeId
            { name := if e.name = "" then "" else e.name,
              balance := 0 + e.balance,
              target := 0 + e.target,
              monthtarget := 0 + e.monthTarget,
              deleted := e.deleted },
          s.history ++ [(e.id, histOf e dbNow)]⟩, true) := by
      unfold DB.MergeEvent DB.envelopeWithTx
      simp [hcase, hfresh]
    refine ⟨_, hmerge, ?_, ?_, ?_, ?_, ?_⟩
    · intro x hx
      rw [lookupRow_updateRow_ne _ hx, lookupRow_append_ne _ hx]
    · simp only [projTriple, lookupRow_updateRow_self _ hkey', hcase]
      simp [Prod.ext_iff]
    · exact ⟨_, lookupRow_updateRow_self _ hkey', rfl⟩
    · rfl
    · intro x
      by_cases hx : x = e.envelopeId
      · simp [hasKey_updateRow, hasKey_append, hx]
      · simp [hasKey_updateRow, hasKey_append, hx]

theorem hasKey_freshId (s : Store) : hasKey s.history (freshId s) = false := by
  cases hcase : lookupRow s.history (freshId s) with
  | none => simpa [hasKey] using hcase
  | some v =>
    have hmem : (freshId s, v) ∈ s.history := lookupRow_mem hcase
    have hle : freshId s ≤ (s.history.map Prod.fst).foldr max 0 :=
      mem_le_foldr_max _ _
        (List.mem_map_of_mem Prod.fst hmem)
    simp only [freshId] at hle
    omega

/-! ### Truncation and negation of doubles -/

theorem truncDiv_neg (n d : Int) : truncDiv (-n) d = -truncDiv n d := by
  unfold truncDiv
  rcases lt_trichotomy n 0 with h | h | h
  · rw [if_pos (by omega), if_neg (by omega), neg_neg]
  · subst h
    simp
  · rw [if_neg (by omega), if_pos (by omega), neg_neg]

/-- Go's `int(-amount)` on the debit side is the negated credit: binary64
negation is exact and truncation toward zero is odd. -/
theorem ftrunc_fneg (x : F64) : ftrunc (fneg x) = -ftrunc x := by
  unfold ftrunc fneg
  by_cases he : 0 ≤ x.e
  · rw [if_pos he, if_pos he, neg_mul]
  · rw [if_neg he, if_neg he, truncDiv_neg]

theorem projTriple_congr {s₁ s₂ : Store} {x : Nat}
    (h : lookupRow s₁.envelopes x = lookupRow s₂.envelopes x) :
    projTriple s₁ x = projTriple s₂ x := by
  simp [projTriple, h]

theorem sumDeltas_nil (id : Nat) : sumDeltas [] id = 0 := rfl

theorem sumDeltas_cons (e : Event) (rest : List Event) (id : Nat) :
    sumDeltas (e :: rest) id =
      if e.envelopeId = id then
        (e.balance, e.target, e.monthTarget) + sumDeltas rest id
      else sumDeltas rest id := by
  by_cases h : e.envelopeId = id
  · simp [sumDeltas, h]
  · simp [sumDeltas, h]

/-- Merging a list of fresh, tombstone-free events whose envelopes are not
deleted succeeds wholly and adds, to every envelope projection, the sum of
the deltas of the list's events aimed at it. -/
theorem mergeList_ok (dbNow : String) :
    ∀ (l : List Event) (s : Store),
      (l.map Event.id).Nodup →
      (∀ ev ∈ l, hasKey s.history ev.id = false) →
      (∀ ev ∈ l, ev.deleted = false) →
      (∀ ev ∈ l, envOk s ev.envelopeId = true) →
      (mergeList dbNow s l).2 = true ∧
      ∀ id, projTriple (mergeList dbNow s l).1 id =
        projTriple s id + sumDeltas l id := by
  intro l
  induction l with
  | nil =>
    intro s _ _ _ _
    exact ⟨rfl, fun id => by simp [mergeList, sumDeltas_nil]⟩
  | cons e rest ih =>
    intro s hnodup hfresh hdel henv
    obtain ⟨s', hmerge, hother, hproj, ⟨r', hr', hrdel⟩, hhist, _⟩ :=
      mergeEvent_ok s dbNow e (hfresh e (List.mem_cons_self e rest))
        (henv e (List.mem_cons_self e rest))
    have hednf : e.deleted = false := hdel e (List.mem_cons_self e rest)
    have hmap := hnodup
    rw [List.map_cons] at hmap
    obtain ⟨hnotin, hnodup'⟩ := List.nodup_cons.mp hmap
    have hidrest : ∀ ev ∈ rest, ev.id ≠ e.id := by
      intro ev hev hc
      exact hnotin (hc ▸ List.mem_map_of_mem Event.id hev)
    have hfresh' : ∀ ev ∈ rest, hasKey s'.history ev.id = false := by
      intro ev hev
      rw [hhist, hasKey_append]
      simp [hfresh ev (List.mem_cons_of_mem e hev), hidrest ev hev]
    have henv' : ∀ ev ∈ rest, envOk s' ev.envelopeId = true := by
      intro ev hev
      by_cases hx : ev.envelopeId = e.envelopeId
      · rw [hx]
        exact envOk_of_lookup_not_deleted hr' (hrdel.trans hednf)
      · have := hother ev.envelopeId hx
        simpa [envOk, this] using henv ev (List.mem_cons_of_mem e hev)
    have hrec := ih s' hnodup'
      hfresh' (fun ev hev => hdel ev (List.mem_cons_of_mem e hev)) henv'
    have hstep : mergeList dbNow s (e :: rest) = mergeList dbNow s' rest := by
      simp only [mergeList, hmerge]
      cases hrl : mergeList dbNow s' rest with
      | mk s2 ok2 => simp
    constructor
    · rw [hstep]
      exact hrec.1
    · intro id
      rw [hstep, (hrec.2 id), sumDeltas_cons]
      by_cases hx : e.envelopeId = id
      · rw [if_pos hx, ← hx, hproj, add_assoc]
      · rw [if_neg hx,
          projTriple_congr (hother id (fun hc => hx hc.symm))]

/-! ### Spread -/

/-- Effect of a balance change on a present, non-deleted envelope: exactly
one history row is appended (keyed by the fresh event id, carrying the
delta, the current name, the comment and the merging clock) and only the
`balance` column of the row changes. -/
theorem updBal_ok (s : Store) (gn dn : String) (k : Nat) (δ : Int)
    (c : String) {r : EnvRow} (hk : lookupRow s.envelopes k = some r)
    (hdel : r.deleted = false) :
    DB.UpdateEnvelopeBalance s gn dn k δ c =
      (updBalStore s dn k δ c r, true) := by
  unfold DB.UpdateEnvelopeBalance DB.Envelope DB.MergeEvent
    DB.envelopeWithTx histOf updBalStore
  simp only [hk, hdel, Bool.false_eq_true, if_false, Option.map_some,
    hasKey_freshId s, Option.map_some']
  simp [hdel, add_zero]

theorem updBalStore_bal_self (s : Store) (dn : String) (k : Nat) (δ : Int)
    (c : String) {r : EnvRow} (hk : lookupRow s.envelopes k = some r) :
    balOf (updBalStore s dn k δ c r) k = r.balance + δ := by
  have hkey : hasKey s.envelopes k = true := by simp [hasKey, hk]
  simp [balOf, updBalStore, lookupRow_updateRow_self _ hkey]

theorem updBalStore_bal_ne (s : Store) (dn : String) (k : Nat) (δ : Int)
    (c : String) (r : EnvRow) {x : Nat} (hx : x ≠ k) :
    balOf (updBalStore s dn k δ c r) x = balOf s x := by
  simp [balOf, updBalStore, lookupRow_updateRow_ne _ hx]

theorem updBalStore_shape (s : Store) (dn : String) (k : Nat) (δ : Int)
    (c : String) {r : EnvRow} (hk : lookupRow s.envelopes k = some r)
    (x : Nat) :
    (lookupRow (updBalStore s dn k δ c r).envelopes x).map rowShape =
      (lookupRow s.envelopes x).map rowShape := by
  by_cases hx : x = k
  · have hkey : hasKey s.envelopes k = true := by simp [hasKey, hk]
    rw [hx]
    simp [updBalStore, lookupRow_updateRow_self _ hkey, hk, rowShape]
  · simp [updBalStore, lookupRow_updateRow_ne _ hx]

theorem shape_lookup {t₂ t₁ : List (Nat × EnvRow)} {x : Nat} {r : EnvRow}
    (h : (lookupRow t₂ x).map rowShape = (lookupRow t₁ x).map rowShape)
    (hk : lookupRow t₁ x = some r) (hd : r.deleted = false) :
    ∃ r₂, lookupRow t₂ x = some r₂ ∧ r₂.deleted = false := by
  cases h2 : lookupRow t₂ x with
  | none => simp [h2, hk] at h
  | some r₂ =>
    refine ⟨r₂, rfl, ?_⟩
    rw [h2, hk] at h
    have : rowShape r₂ = rowShape r := by simpa using h
    have := congrArg (fun q => q.2.2.2) this
    simpa [rowShape, hd] using this

/-- The `spreadLoop` workhorse: when the source row and every row the
remaining snapshot entries point at are present and not deleted, the loop
succeeds, changes each envelope's balance by `spreadDelta`, and leaves all
non-balance columns (and row presence) untouched. -/
theorem spreadLoop_spec (gn dn : String) (src : Nat) (B : Int) (nm : String)
    (T : Int) :
    ∀ (es : List Envelopes.Envelope) (s : Store),
      (∀ e ∈ es, e.id ≠ src → e.monthTarget ≠ 0 →
        ∃ r, lookupRow s.envelopes e.id = some r ∧ r.deleted = false) →
      (∃ rs, lookupRow s.envelopes src = some rs ∧ rs.deleted = false) →
      (DB.spreadLoop gn dn src B nm T s es).2 = true ∧
      (∀ x, balOf (DB.spreadLoop gn dn src B nm T s es).1 x =
        balOf s x + spreadDelta B T src es x) ∧
      (∀ x,
        (lookupRow (DB.spreadLoop gn dn src B nm T s es).1.envelopes x).map
          rowShape = (lookupRow s.envelopes x).map rowShape) := by
  intro es
  induction es with
  | nil =>
    intro s _ _
    exact ⟨rfl, fun x => by simp [DB.spreadLoop, spreadDelta],
      fun x => rfl⟩
  | cons e rest ih =>
    intro s hes hsrc
    by_cases hskip : (e.id == src || e.monthTarget == 0) = true
    · have hguard : e.id = src ∨ e.monthTarget = 0 := by
        simpa using hskip
      have hstep : DB.spreadLoop gn dn src B nm T s (e :: rest) =
          DB.spreadLoop gn dn src B nm T s rest := by
        simp only [DB.spreadLoop]
        rw [if_pos hskip]
      have hrec := ih s (fun e' he' => hes e' (List.mem_cons_of_mem _ he'))
        hsrc
      refine ⟨by rw [hstep]; exact hrec.1, fun x => ?_, fun x => ?_⟩
      · rw [hstep, hrec.2.1 x]
        simp [spreadDelta, hguard]
      · rw [hstep]
        exact hrec.2.2 x
    · have hid : e.id ≠ src := by
        intro hc
        exact hskip (by simp [hc])
      have hmt : e.monthTarget ≠ 0 := by
        intro hc
        exact hskip (by simp [hc])
      obtain ⟨re, hre, hredel⟩ := hes e (List.mem_cons_self e rest) hid hmt
      obtain ⟨rs, hrs, hrsdel⟩ := hsrc
      have hstep1 := updBal_ok s gn dn e.id
        (ftrunc (fmul (fofInt B) (fdiv (fofInt e.monthTarget) (fofInt T))))
        ("Spread from " ++ nm) hre hredel
      have hrs1 : lookupRow (updBalStore s dn e.id
          (ftrunc (fmul (fofInt B) (fdiv (fofInt e.monthTarget) (fofInt T))))
          ("Spread from " ++ nm) re).envelopes src = some rs := by
        simpa [updBalStore, lookupRow_updateRow_ne _ (Ne.symm hid)] using hrs
      have hstep2 := updBal_ok (updBalStore s dn e.id
          (ftrunc (fmul (fofInt B) (fdiv (fofInt e.monthTarget) (fofInt T))))
          ("Spread from " ++ nm) re) gn dn src
        (ftrunc (fneg (fmul (fofInt B) (fdiv (fofInt e.monthTarget) (fofInt T)))))
        ("Spread to " ++ e.name) hrs1 hrsdel
      have hstep : DB.spreadLoop gn dn src B nm T s (e :: rest) =
          DB.spreadLoop gn dn src B nm T
            (updBalStore (updBalStore s dn e.id
                (ftrunc (fmul (fofInt B) (fdiv (fofInt e.monthTarget) (fofInt T))))
                ("Spread from " ++ nm) re) dn src
              (ftrunc (fneg (fmul (fofInt B) (fdiv (fofInt e.monthTarget) (fofInt T)))))
              ("Spread to " ++ e.name) rs) rest := by
        simp only [DB.spreadLoop]
        rw [if_neg hskip]
        simp only [hstep1, hstep2, if_true]
      have hshape : ∀ x,
          (lookupRow (updBalStore (updBalStore s dn e.id
              (ftrunc (fmul (fofInt B) (fdiv (fofInt e.monthTarget) (fofInt T))))
              ("Spread from " ++ nm) re) dn src
            (ftrunc (fneg (fmul (fofInt B) (fdiv (fofInt e.monthTarget) (fofInt T)))))
            ("Spread to " ++ e.name) rs).envelopes x).map rowShape =
          (lookupRow s.envelopes x).map rowShape := by
        intro x
        exact (updBalStore_shape _ dn src _ _ hrs1 x).trans
          (updBalStore_shape s dn e.id _ _ hre x)
      have hes2 : ∀ e' ∈ rest, e'.id ≠ src → e'.monthTarget ≠ 0 →
          ∃ r, lookupRow (updBalStore (updBalStore s dn e.id
              (ftrunc (fmul (fofInt B) (fdiv (fofInt e.monthTarget) (fofInt T))))
              ("Spread from " ++ nm) re) dn src
            (ftrunc (fneg (fmul (fofInt B) (fdiv (fofInt e.monthTarget) (fofInt T)))))
            ("Spread to " ++ e.name) rs).envelopes e'.id = some r ∧
            r.deleted = false := by
        intro e' he' hid' hmt'
        obtain ⟨r', hr', hrdel'⟩ :=
          hes e' (List.mem_cons_of_mem _ he') hid' hmt'
        exact shape_lookup (hshape e'.id) hr' hrdel'
      have hsrc2 : ∃ rs', lookupRow (updBalStore (updBalStore s dn e.id
            (ftrunc (fmul (fofInt B) (fdiv (fofInt e.monthTarget) (fofInt T))))
            ("Spread from " ++ nm) re) dn src
          (ftrunc (fneg (fmul (fofInt B) (fdiv (fofInt e.monthTarget) (fofInt T)))))
          ("Spread to " ++ e.name) rs).envelopes src = some rs' ∧
          rs'.deleted = false :=
        shape_lookup (hshape src) hrs hrsdel
      have hrec := ih _ hes2 hsrc2
      have hbal : ∀ x, balOf (updBalStore (updBalStore s dn e.id
            (ftrunc (fmul (fofInt B) (fdiv (fofInt e.monthTarget) (fofInt T))))
            ("Spread from " ++ nm) re) dn src
          (ftrunc (fneg (fmul (fofInt B) (fdiv (fofInt e.monthTarget) (fofInt T)))))
          ("Spread to " ++ e.name) rs) x = balOf s x +
          ((if x = e.id then
              ftrunc (fmul (fofInt B) (fdiv (fofInt e.monthTarget) (fofInt T))) else 0) +
           (if x = src then
              -ftrunc (fmul (fofInt B) (fdiv (fofInt e.monthTarget) (fofInt T))) else 0)) := by
        intro x
        by_cases hx1 : x = src
        · have hx2 : x ≠ e.id := fun hc => hid (hc.symm.trans hx1)
          rw [hx1, updBalStore_bal_self _ dn src _ _ hrs1, if_pos rfl]
          have : rs.balance = balOf (updBalStore s dn e.id
              (ftrunc (fmul (fofInt B) (fdiv (fofInt e.monthTarget) (fofInt T))))
              ("Spread from " ++ nm) re) src := by
            simp [balOf, hrs1]
          rw [this, updBalStore_bal_ne _ dn _ _ _ _ (Ne.symm hid)]
          rw [if_neg (fun hc => hid hc.symm : ¬src = e.id)]
          rw [ftrunc_fneg]
          ring
        · rw [updBalStore_bal_ne _ dn _ _ _ _ hx1, if_neg hx1, add_zero]
          by_cases hx2 : x = e.id
          · rw [hx2, updBalStore_bal_self s dn e.id _ _ hre, if_pos rfl]
            simp [balOf, hre]
          · rw [updBalStore_bal_ne s dn _ _ _ _ hx2, if_neg hx2, add_zero]
      have hgne : ¬(e.id = src ∨ e.monthTarget = 0) := by
        intro hc
        rcases hc with hc | hc
        · exact hid hc
        · exact hmt hc
      refine ⟨by rw [hstep]; exact hrec.1, fun x => ?_, fun x => ?_⟩
      · rw [hstep, hrec.2.1 x, hbal x, spreadDelta, if_neg hgne]
        ring
      · rw [hstep]
        exact (hrec.2.2 x).trans (hshape x)


theorem spreadDelta_src (B T : Int) (src : Nat)
    (es : List Envelopes.Envelope) :
    spreadDelta B T src es src =
      -((es.filter (fun e => e.id ≠ src ∧ e.monthTarget ≠ 0)).map
          (fun e => ftrunc (fmul (fofInt B) (fdiv (fofInt e.monthTarget) (fofInt T))))).sum := by
  induction es with
  | nil => simp [spreadDelta]
  | cons e rest ih =>
    by_cases hg : e.id = src ∨ e.monthTarget = 0
    · have hp : ¬(e.id ≠ src ∧ e.monthTarget ≠ 0) := by
        intro hc
        rcases hg with hg | hg
        · exact hc.1 hg
        · exact hc.2 hg
      rw [spreadDelta, if_pos hg, zero_add, ih,
        List.filter_cons_of_neg (by simpa using hp)]
    · push_neg at hg
      rw [spreadDelta, if_neg (by push_neg; exact hg),
        if_neg (Ne.symm hg.1), if_pos rfl, zero_add, ih,
        List.filter_cons_of_pos (by simpa using hg)]
      rw [List.map_cons, List.sum_cons]
      ring

theorem spreadDelta_zero (B T : Int) (src : Nat)
    (es : List Envelopes.Envelope) (x : Nat) (hx : x ≠ src)
    (h : ∀ e ∈ es, e.id = x → (e.id = src ∨ e.monthTarget = 0)) :
    spreadDelta B T src es x = 0 := by
  induction es with
  | nil => simp [spreadDelta]
  | cons e rest ih =>
    have hrest := ih (fun e' he' => h e' (List.mem_cons_of_mem _ he'))
    by_cases hg : e.id = src ∨ e.monthTarget = 0
    · rw [spreadDelta, if_pos hg, zero_add, hrest]
    · have hne : e.id ≠ x := by
        intro hc
        exact hg (h e (List.mem_cons_self e rest) hc)
      rw [spreadDelta, if_neg hg, if_neg (fun hc => hne hc.symm),
        if_neg hx, add_zero, zero_add, hrest]

theorem spreadDelta_recipient (B T : Int) (src : Nat) :
    ∀ (es : List Envelopes.Envelope) (x : Nat) (e₀ : Envelopes.Envelope),
    ((es.map Envelope.id).Nodup) → e₀ ∈ es → e₀.id = x → x ≠ src →
    e₀.monthTarget ≠ 0 →
    spreadDelta B T src es x =
      ftrunc (fmul (fofInt B) (fdiv (fofInt e₀.monthTarget) (fofInt T))) := by
  intro es
  induction es with
  | nil =>
    intro x e₀ _ hmem
    exact absurd hmem (List.not_mem_nil e₀)
  | cons e rest ih =>
    intro x e₀ hnd hmem hid hx hmt
    rw [List.map_cons] at hnd
    obtain ⟨hnotin, hnd'⟩ := List.nodup_cons.mp hnd
    rcases List.mem_cons.mp hmem with hh | hh
    · have hgne : ¬(e.id = src ∨ e.monthTarget = 0) := by
        intro hc
        rcases hc with hc | hc
        · exact hx (by rw [← hid, hh, hc])
        · exact hmt (by rw [hh]; exact hc)
      have hrest : spreadDelta B T src rest x = 0 := by
        apply spreadDelta_zero B T src rest x hx
        intro e' he' hc
        exfalso
        apply hnotin
        have heq : e.id = e'.id := by
          rw [← hh, hid]
          exact hc.symm
        rw [heq]
        exact List.mem_map_of_mem Envelope.id he'
      rw [spreadDelta, if_neg hgne, if_pos (by rw [← hid, hh]), hrest,
        if_neg hx, add_zero, add_zero, hh]
    · have hne : e.id ≠ x := by
        intro hc
        apply hnotin
        rw [hc, ← hid]
        exact List.mem_map_of_mem Envelope.id hh
      have hrest := ih x e₀ hnd' hh hid hx hmt
      by_cases hg : e.id = src ∨ e.monthTarget = 0
      · rw [spreadDelta, if_pos hg, zero_add, hrest]
      · rw [spreadDelta, if_neg hg, if_neg (fun hc => hne hc.symm),
          if_neg hx, add_zero, zero_add, hrest]

theorem mem_lookup_of_nodup {α : Type} :
    ∀ {t : List (Nat × α)}, (t.map Prod.fst).Nodup →
    ∀ {k : Nat} {v : α}, (k, v) ∈ t → lookupRow t k = some v := by
  intro t
  induction t with
  | nil =>
    intro _ k v hmem
    exact absurd hmem (List.not_mem_nil (k, v))
  | cons p t ih =>
    intro hnd k v hmem
    rw [List.map_cons] at hnd
    obtain ⟨hnotin, hnd'⟩ := List.nodup_cons.mp hnd
    rcases List.mem_cons.mp hmem with hh | hh
    · rw [← hh]
      simp [lookupRow]
    · have hne : p.1 ≠ k := by
        intro hc
        apply hnotin
        rw [hc]
        exact List.mem_map_of_mem Prod.fst hh
      rw [lookupRow, if_neg hne]
      exact ih hnd' hh

theorem allEnvelopes_nodup (s : Store) (im : String → Bool)
    (hnd : (s.envelopes.map Prod.fst).Nodup) :
    ((DB.AllEnvelopes s im).map Envelope.id).Nodup := by
  have hmm : (DB.AllEnvelopes s im).map Envelope.id =
      (s.envelopes.filter (fun p => !p.2.deleted)).map Prod.fst := by
    rw [DB.AllEnvelopes, List.map_map]
    rfl
  rw [hmm]
  exact List.Nodup.sublist
    (List.Sublist.map Prod.fst (List.filter_sublist s.envelopes)) hnd

theorem allEnvelopes_mem (im : String → Bool) {s : Store} {x : Nat}
    {r : EnvRow} (hk : lookupRow s.envelopes x = some r)
    (hdel : r.deleted = false) :
    ∃ e₀ ∈ DB.AllEnvelopes s im, e₀.id = x ∧
      e₀.monthTarget = r.monthtarget ∧ e₀.balance = r.balance := by
  have hmem : (x, r) ∈ s.envelopes := lookupRow_mem hk
  have hmemf : (x, r) ∈ s.envelopes.filter (fun p => !p.2.deleted) :=
    List.mem_filter.mpr ⟨hmem, by simp [hdel]⟩
  refine ⟨_, List.mem_map_of_mem _ hmemf, rfl, rfl, rfl⟩

theorem allEnvelopes_row {s : Store} {im : String → Bool}
    (hnd : (s.envelopes.map Prod.fst).Nodup) :
    ∀ e ∈ DB.AllEnvelopes s im,
      ∃ r, lookupRow s.envelopes e.id = some r ∧ r.deleted = false ∧
        r.monthtarget = e.monthTarget := by
  intro e he
  rw [DB.AllEnvelopes] at he
  obtain ⟨p, hpf, hpe⟩ := List.mem_map.mp he
  obtain ⟨hpmem, hpdel⟩ := List.mem_filter.mp hpf
  have hdel : p.2.deleted = false := by simpa using hpdel
  refine ⟨p.2, ?_, hdel, by rw [← hpe]⟩
  have : lookupRow s.envelopes p.1 = some p.2 :=
    mem_lookup_of_nodup hnd (by exact hpmem)
  rw [← hpe]
  exact this


/-- Full description of a successful `Spread` on a store with unique
primary keys, a present, non-deleted source and a positive total month
target (so that no division by zero occurs): every other non-deleted
envelope with a non-zero month target gains
`int(float64(balance) * (float64(monthTarget) / float64(total)))` cents
of the source's balance, envelopes with a zero month target (or
tombstoned rows) are untouched, and the source loses exactly the total of
the credited shares. -/
theorem spread_spec (s : Store) (gn dn : String) (im : String → Bool)
    (src : Nat) (rs : EnvRow)
    (hk : lookupRow s.envelopes src = some rs) (hdel : rs.deleted = false)
    (hnd : (s.envelopes.map Prod.fst).Nodup)
    (_hT : 0 < spreadTotal s im src) :
    (DB.Spread s gn dn im src).2 = true ∧
    (∀ x r, x ≠ src → lookupRow s.envelopes x = some r →
      r.deleted = false → r.monthtarget ≠ 0 →
      balOf (DB.Spread s gn dn im src).1 x =
        r.balance + ftrunc (fmul (fofInt rs.balance)
          (fdiv (fofInt r.monthtarget) (fofInt (spreadTotal s im src))))) ∧
    (∀ x r, x ≠ src → lookupRow s.envelopes x = some r →
      (r.monthtarget = 0 ∨ r.deleted = true) →
      balOf (DB.Spread s gn dn im src).1 x = r.balance) ∧
    balOf (DB.Spread s gn dn im src).1 src =
      rs.balance - (((DB.AllEnvelopes s im).filter
        (fun e => e.id ≠ src ∧ e.monthTarget ≠ 0)).map
        (fun e => ftrunc (fmul (fofInt rs.balance)
          (fdiv (fofInt e.monthTarget)
            (fofInt (spreadTotal s im src)))))).sum := by
  have henv : DB.Envelope s src =
      some ⟨src, rs.balance, rs.target, rs.name, 0, rs.monthtarget⟩ := by
    simp [DB.Envelope, DB.envelopeWithTx, hk, hdel]
  have hunfold : DB.Spread s gn dn im src =
      DB.spreadLoop gn dn src rs.balance rs.name (spreadTotal s im src) s
        (DB.AllEnvelopes s im) := by
    simp [DB.Spread, henv, spreadTotal]
  have hes : ∀ e ∈ DB.AllEnvelopes s im, e.id ≠ src → e.monthTarget ≠ 0 →
      ∃ r, lookupRow s.envelopes e.id = some r ∧ r.deleted = false := by
    intro e he _ _
    obtain ⟨r, h1, h2, _⟩ := allEnvelopes_row hnd e he
    exact ⟨r, h1, h2⟩
  have hmain := spreadLoop_spec gn dn src rs.balance rs.name
    (spreadTotal s im src) (DB.AllEnvelopes s im) s hes ⟨rs, hk, hdel⟩
  refine ⟨by rw [hunfold]; exact hmain.1, ?_, ?_, ?_⟩
  · intro x r hx hkx hdelx hmtx
    rw [hunfold, hmain.2.1 x]
    obtain ⟨e₀, he₀, hid₀, hmt₀, _⟩ := allEnvelopes_mem im hkx hdelx
    have hdelta := spreadDelta_recipient rs.balance (spreadTotal s im src)
      src (DB.AllEnvelopes s im) x e₀ (allEnvelopes_nodup s im hnd) he₀ hid₀
      hx (by rw [hmt₀]; exact hmtx)
    rw [hdelta, hmt₀]
    simp [balOf, hkx]
  · intro x r hx hkx hcase
    rw [hunfold, hmain.2.1 x]
    have hzero : spreadDelta rs.balance (spreadTotal s im src) src
        (DB.AllEnvelopes s im) x = 0 := by
      apply spreadDelta_zero _ _ _ _ _ hx
      intro e he hex
      obtain ⟨r', h1, h2, h3⟩ := allEnvelopes_row hnd e he
      rw [hex, hkx] at h1
      have hrr : r' = r := by
        injection h1 with hval
        exact hval.symm
      rcases hcase with hc | hc
      · right
        rw [← h3, hrr, hc]
      · exfalso
        rw [hrr, hc] at h2
        exact Bool.true_eq_false.mp h2
    rw [hzero, add_zero]
    simp [balOf, hkx]
  · rw [hunfold, hmain.2.1 src, spreadDelta_src]
    have hbal : balOf s src = rs.balance := by simp [balOf, hk]
    rw [hbal, sub_eq_add_neg]


/-! ### Balance-sum preservation -/

theorem hasKey_iff_mem_keys {α : Type} {t : List (Nat × α)} {k : Nat} :
    hasKey t k = true ↔ k ∈ t.map Prod.fst := by
  induction t with
  | nil => simp [hasKey, lookupRow]
  | cons p t ih =>
    by_cases hp : p.1 = k
    · simp [hasKey, lookupRow, hp]
    · simpa [hasKey, lookupRow, hp, Ne.symm hp] using ih

theorem updateRow_append {α : Type} (t u : List (Nat × α)) (k : Nat)
    (v : α) :
    updateRow (t ++ u) k v = updateRow t k v ++ updateRow u k v := by
  induction t with
  | nil => rfl
  | cons p t ih => simp [updateRow, ih]

theorem sum_updateRow {α : Type} (g : α → Int) :
    ∀ (t : List (Nat × α)) (k : Nat) (v r : α),
      (t.map Prod.fst).Nodup → lookupRow t k = some r →
      ((updateRow t k v).map (fun p => g p.2)).sum =
        (t.map (fun p => g p.2)).sum - g r + g v := by
  intro t
  induction t with
  | nil =>
    intro k v r _ hk
    simp [lookupRow] at hk
  | cons p t ih =>
    intro k v r hnd hk
    rw [List.map_cons] at hnd
    obtain ⟨hnotin, hnd'⟩ := List.nodup_cons.mp hnd
    by_cases hp : p.1 = k
    · have hr : r = p.2 := by
        rw [lookupRow, if_pos hp] at hk
        injection hk with h
        exact h.symm
      have hnk : hasKey t k = false := by
        cases hcase : hasKey t k with
        | false => rfl
        | true =>
          exfalso
          apply hnotin
          rw [hp]
          exact hasKey_iff_mem_keys.mp hcase
      rw [updateRow, if_pos hp, updateRow_of_hasKey_false _ hnk]
      simp [hr]
      ring
    · have hk' : lookupRow t k = some r := by
        rw [lookupRow, if_neg hp] at hk
        exact hk
      rw [updateRow, if_neg hp]
      simp only [List.map_cons, List.sum_cons, ih k v r hnd' hk']
      ring

theorem mergeEvent_sumBal {s : Store} {dbNow : String} {e : Event}
    (hnd : (s.envelopes.map Prod.fst).Nodup)
    (hok : (DB.MergeEvent s dbNow e).2 = true) :
    sumBal (DB.MergeEvent s dbNow e).1 = sumBal s + e.balance ∧
    ((DB.MergeEvent s dbNow e).1.envelopes.map Prod.fst).Nodup := by
  cases hcase : lookupRow s.envelopes e.envelopeId with
  | some r =>
    cases hdel : r.deleted with
    | true =>
      rw [mergeEvent_deleted hcase hdel] at hok
      simp at hok
    | false =>
      cases hfresh : hasKey s.history e.id with
      | true =>
        rw [mergeEvent_dup hfresh] at hok
        simp at hok
      | false =>
        have hmerge : DB.MergeEvent s dbNow e =
            (⟨updateRow s.envelopes e.envelopeId
                { name := if e.name = "" then r.name else e.name,
                  balance := r.balance + e.balance,
                  target := r.target + e.target,
                  monthtarget := r.monthtarget + e.monthTarget,
                  deleted := e.deleted },
              s.history ++ [(e.id, histOf e dbNow)]⟩, true) := by
          unfold DB.MergeEvent DB.envelopeWithTx
          simp [hcase, hdel, hfresh]
        rw [hmerge]
        constructor
        · show ((updateRow s.envelopes e.envelopeId _).map
            (fun p => p.2.balance)).sum = sumBal s + e.balance
          rw [sum_updateRow (fun q => q.balance) s.envelopes e.envelopeId _
            r hnd hcase]
          show sumBal s - r.balance + (r.balance + e.balance) =
            sumBal s + e.balance
          ring
        · show ((updateRow s.envelopes e.envelopeId _).map Prod.fst).Nodup
          rw [keys_updateRow]
          exact hnd
  | none =>
    cases hfresh : hasKey s.history e.id with
    | true =>
      rw [mergeEvent_dup hfresh] at hok
      simp at hok
    | false =>
      have hkey : hasKey s.envelopes e.envelopeId = false :=
        lookupRow_eq_none.mp hcase
      have hmerge : DB.MergeEvent s dbNow e =
          (⟨updateRow (s.envelopes ++ [(e.envelopeId, blankRow)])
              e.envelopeId
              { name := if e.name = "" then "" else e.name,
                balance := 0 + e.balance,
                target := 0 + e.target,
                monthtarget := 0 + e.monthTarget,
                deleted := e.deleted },
            s.history ++ [(e.id, histOf e dbNow)]⟩, true) := by
        unfold DB.MergeEvent DB.envelopeWithTx
        simp [hcase, hfresh]
      rw [hmerge]
      rw [updateRow_append, updateRow_of_hasKey_false _ hkey]
      constructor
      · show ((s.envelopes ++ updateRow [(e.envelopeId, blankRow)]
          e.envelopeId _).map (fun p => p.2.balance)).sum =
          sumBal s + e.balance
        simp [updateRow, sumBal]
      · show ((s.envelopes ++ updateRow [(e.envelopeId, blankRow)]
          e.envelopeId _).map Prod.fst).Nodup
        simp only [updateRow, if_pos rfl]
        rw [List.map_append, List.nodup_append]
        refine ⟨hnd, by simp, ?_⟩
        intro a ha hb
        simp at hb
        rw [hb] at ha
        have hnotmem : e.envelopeId ∉ s.envelopes.map Prod.fst := by
          intro hc
          rw [← hasKey_iff_mem_keys] at hc
          rw [hkey] at hc
          exact Bool.false_ne_true hc
        exact hnotmem ha

theorem updBal_sum {s : Store} {gn dn : String} {k : Nat} {δ : Int}
    {c : String} (hnd : (s.envelopes.map Prod.fst).Nodup)
    (hok : (DB.UpdateEnvelopeBalance s gn dn k δ c).2 = true) :
    sumBal (DB.UpdateEnvelopeBalance s gn dn k δ c).1 = sumBal s + δ ∧
    ((DB.UpdateEnvelopeBalance s gn dn k δ c).1.envelopes.map
      Prod.fst).Nodup := by
  cases henv : DB.Envelope s k with
  | none =>
    simp only [DB.UpdateEnvelopeBalance, henv] at hok
    simp at hok
  | some env =>
    simp only [DB.UpdateEnvelopeBalance, henv] at hok ⊢
    exact mergeEvent_sumBal hnd hok

theorem spreadLoop_sumBal (gn dn : String) (src : Nat) (B : Int)
    (nm : String) (T : Int) :
    ∀ (es : List Envelopes.Envelope) (s : Store),
      (s.envelopes.map Prod.fst).Nodup →
      (DB.spreadLoop gn dn src B nm T s es).2 = true →
      sumBal (DB.spreadLoop gn dn src B nm T s es).1 = sumBal s := by
  intro es
  induction es with
  | nil =>
    intro s _ _
    rfl
  | cons e rest ih =>
    intro s hnd hok
    by_cases hskip : (e.id == src || e.monthTarget == 0) = true
    · have hstep : DB.spreadLoop gn dn src B nm T s (e :: rest) =
          DB.spreadLoop gn dn src B nm T s rest := by
        simp only [DB.spreadLoop]
        rw [if_pos hskip]
      rw [hstep] at hok ⊢
      exact ih s hnd hok
    · cases h1 : DB.UpdateEnvelopeBalance s gn dn e.id
        (ftrunc (fmul (fofInt B) (fdiv (fofInt e.monthTarget) (fofInt T))))
        ("Spread from " ++ nm) with
      | mk s1 ok1 =>
        cases ok1 with
        | false =>
          have : DB.spreadLoop gn dn src B nm T s (e :: rest) =
              (s1, false) := by
            simp only [DB.spreadLoop]
            rw [if_neg hskip]
            simp only [h1]
            simp
          rw [this] at hok
          simp at hok
        | true =>
          have hsum1 := updBal_sum hnd (by rw [h1] :
            (DB.UpdateEnvelopeBalance s gn dn e.id
              (ftrunc (fmul (fofInt B) (fdiv (fofInt e.monthTarget) (fofInt T))))
              ("Spread from " ++ nm)).2 = true)
          rw [h1] at hsum1
          cases h2 : DB.UpdateEnvelopeBalance s1 gn dn src
            (ftrunc (fneg (fmul (fofInt B) (fdiv (fofInt e.monthTarget) (fofInt T)))))
            ("Spread to " ++ e.name) with
          | mk s2 ok2 =>
            cases ok2 with
            | false =>
              have : DB.spreadLoop gn dn src B nm T s (e :: rest) =
                  (s2, false) := by
                simp only [DB.spreadLoop]
                rw [if_neg hskip]
                simp only [h1, h2]
                simp
              rw [this] at hok
              simp at hok
            | true =>
              have hsum2 := updBal_sum hsum1.2 (by rw [h2] :
                (DB.UpdateEnvelopeBalance s1 gn dn src
                  (ftrunc (fneg (fmul (fofInt B) (fdiv (fofInt e.monthTarget) (fofInt T)))))
                  ("Spread to " ++ e.name)).2 = true)
              rw [h2] at hsum2
              have hstep : DB.spreadLoop gn dn src B nm T s (e :: rest) =
                  DB.spreadLoop gn dn src B nm T s2 rest := by
                simp only [DB.spreadLoop]
                rw [if_neg hskip]
                simp only [h1, h2]
                simp
              rw [hstep] at hok ⊢
              rw [ih s2 hsum2.2 hok, hsum2.1, hsum1.1, ftrunc_fneg]
              ring


/-! ### Merge success inversion (history stamping) -/

/-- Any successful merge appends exactly the history row `histOf e dbNow`
(whose date is the merging clock, not the event's own date) and leaves
every pre-existing history row untouched; moreover the event id was fresh.
-/
theorem mergeEvent_success_inv {s : Store} {dbNow : String} {e : Event}
    (hok : (DB.MergeEvent s dbNow e).2 = true) :
    (DB.MergeEvent s dbNow e).1.history =
      s.history ++ [(e.id, histOf e dbNow)] ∧
    hasKey s.history e.id = false := by
  cases hcase : lookupRow s.envelopes e.envelopeId with
  | some r =>
    cases hdel : r.deleted with
    | true =>
      rw [mergeEvent_deleted hcase hdel] at hok
      simp at hok
    | false =>
      cases hfresh : hasKey s.history e.id with
      | true =>
        rw [mergeEvent_dup hfresh] at hok
        simp at hok
      | false =>
        constructor
        · unfold DB.MergeEvent DB.envelopeWithTx
          simp [hcase, hdel, hfresh]
        · rfl
  | none =>
    cases hfresh : hasKey s.history e.id with
    | true =>
      rw [mergeEvent_dup hfresh] at hok
      simp at hok
    | false =>
      constructor
      · unfold DB.MergeEvent DB.envelopeWithTx
        simp [hcase, hfresh]
      · rfl

/-! ### UpdateEnvelopeMeta -/

/-- Claim C4 (amended): on a present, non-deleted envelope, the call is a
no-op exactly when the name is unchanged and both absolute parameters
`newTarget`, `newMonthTarget` are zero (NOT when the computed deltas are
zero); otherwise it constructs one event whose target and month-target
fields are the differences to the current projection and merges it,
appending one history row. -/
theorem updateEnvelopeMeta_spec (s : Store) (gn dn : String) (id : Nat)
    (name : String) (nT nMT : Int) (r : EnvRow)
    (hk : lookupRow s.envelopes id = some r) (hdel : r.deleted = false) :
    ((name = r.name ∧ nT = 0 ∧ nMT = 0) →
      DB.UpdateEnvelopeMeta s gn dn id name nT nMT = (s, none, true)) ∧
    (¬(name = r.name ∧ nT = 0 ∧ nMT = 0) →
      ∃ ev, (DB.UpdateEnvelopeMeta s gn dn id name nT nMT).2.1 = some ev ∧
        ev.balance = 0 ∧ ev.target = nT - r.target ∧
        ev.monthTarget = nMT - r.monthtarget ∧ ev.name = name ∧
        (DB.UpdateEnvelopeMeta s gn dn id name nT nMT).2.2 = true ∧
        (DB.UpdateEnvelopeMeta s gn dn id name nT nMT).1.history =
          s.history ++ [(freshId s, histOf ev dn)]) := by
  have henv : DB.Envelope s id =
      some ⟨id, r.balance, r.target, r.name, 0, r.monthtarget⟩ := by
    simp [DB.Envelope, DB.envelopeWithTx, hk, hdel]
  constructor
  · intro hcond
    simp only [DB.UpdateEnvelopeMeta, henv]
    rw [if_pos (by exact hcond)]
  · intro hcond
    obtain ⟨s', hmerge, _, _, _, hhist, _⟩ :=
      mergeEvent_ok s dn
        ({ envelopeId := id, id := freshId s, date := gn, name := name,
           balance := 0, target := nT - r.target,
           monthTarget := nMT - r.monthtarget, deleted := false,
           comment := "" } : Event)
        (hasKey_freshId s) (envOk_of_lookup_not_deleted hk hdel)
    have hres : DB.UpdateEnvelopeMeta s gn dn id name nT nMT =
        (s', some ({ envelopeId := id, id := freshId s, date := gn,
                     name := name, balance := 0, target := nT - r.target,
                     monthTarget := nMT - r.monthtarget, deleted := false,
                     comment := "" } : Event), true) := by
      simp only [DB.UpdateEnvelopeMeta, henv]
      rw [if_neg (by exact hcond)]
      simp only [hmerge]
    exact ⟨_, by rw [hres], rfl, rfl, rfl, rfl, by rw [hres],
      by rw [hres]; exact hhist⟩

/-! ### Friend sequence handling -/

theorem handleMessage_accept_msg {f : Friend} {now : Nat} {m : BusMessage}
    (h : (f.handleMessage now m).2 = true) :
    (f.handleMessage now m).1.msg = some m := by
  obtain ⟨nm, msg, ls⟩ := f
  cases msg with
  | none => rfl
  | some prev =>
    by_cases hseq : m.Seq ≤ prev.Seq
    · exfalso
      simp [Friend.handleMessage, hseq] at h
    · simp [Friend.handleMessage, hseq]

theorem handleMessage_reject_eq {f : Friend} {now : Nat} {m : BusMessage}
    (h : (f.handleMessage now m).2 = false) :
    (f.handleMessage now m).1 = f := by
  obtain ⟨nm, msg, ls⟩ := f
  cases msg with
  | none =>
    exfalso
    simp [Friend.handleMessage] at h
  | some prev =>
    by_cases hseq : m.Seq ≤ prev.Seq
    · simp [Friend.handleMessage, hseq]
    · exfalso
      simp [Friend.handleMessage, hseq] at h

theorem handleAll_id {f : Friend} :
    ∀ {ms : List (Nat × BusMessage)},
      (∀ p ∈ ms, (f.handleMessage p.1 p.2).2 = false) →
      f.handleAll ms = f := by
  intro ms
  induction ms with
  | nil => intro _; rfl
  | cons p rest ih =>
    intro h
    have hp := handleMessage_reject_eq (h p (List.mem_cons_self p rest))
    rw [Friend.handleAll, hp]
    exact ih (fun q hq => h q (List.mem_cons_of_mem p hq))

theorem handleMessage_accept_lt {f : Friend} {prev : BusMessage}
    {now : Nat} {m : BusMessage} (hm : f.msg = some prev)
    (h : (f.handleMessage now m).2 = true) : prev.Seq < m.Seq := by
  obtain ⟨nm, msg, ls⟩ := f
  have hmsg : msg = some prev := hm
  subst hmsg
  by_cases hseq : m.Seq ≤ prev.Seq
  · exfalso
    simp [Friend.handleMessage, hseq] at h
  · push_neg at hseq
    exact hseq

/-! ### String-keyed maps (friends) -/

theorem lookupStr_append_self {α : Type} {t : List (String × α)}
    {k : String} (v : α) (h : lookupStr t k = none) :
    lookupStr (t ++ [(k, v)]) k = some v := by
  induction t with
  | nil => simp [lookupStr]
  | cons p t ih =>
    by_cases hp : p.1 = k
    · simp [lookupStr, hp] at h
    · rw [lookupStr, if_neg hp] at h
      simpa [lookupStr, hp] using ih h

theorem lookupStr_updateStr_self {α : Type} {t : List (String × α)}
    {k : String} (v : α) {w : α} (h : lookupStr t k = some w) :
    lookupStr (updateStr t k v) k = some v := by
  induction t with
  | nil => simp [lookupStr] at h
  | cons p t ih =>
    by_cases hp : p.1 = k
    · simp [lookupStr, updateStr, hp]
    · rw [lookupStr, if_neg hp] at h
      rw [updateStr, if_neg hp, lookupStr, if_neg hp]
      exact ih h


/-! ### Claim theorems -/

/-- Claim C1 (code bug, evaluated at a failing input): a second
`MergeEvent` of the same event is NOT the no-op success the specification
demands. The first merge succeeds; the repeated merge leaves the store
unchanged (the transaction rolls back, so the deltas are not applied a
second time) but returns the primary-key-violation error (`false`) instead
of succeeding. -/
theorem claimC1_duplicate_merge_errors :
    (DB.MergeEvent sEmpty "d1" evC1).2 = true ∧
    DB.MergeEvent (DB.MergeEvent sEmpty "d1" evC1).1 "d2" evC1 =
      ((DB.MergeEvent sEmpty "d1" evC1).1, false) := by
  decide

/-- Claim C2 counterexample: the order-independent vector-sum law fails as
universally stated. Starting from a store whose envelope 1 is tombstoned,
merging the singleton set `[evC3]` (distinct ids, `deleted = false`) does
not add the event's deltas to the projection: the merge fails and the
projection is unchanged. -/
theorem claimC2_counterexample :
    ([evC3].map Event.id).Nodup ∧ evC3.deleted = false ∧
    projTriple (mergeList "d" sDel [evC3]).1 1 ≠
      projTriple sDel 1 + sumDeltas [evC3] 1 := by
  decide

/-- Claim C2 (amended): for events with pairwise-distinct ids not yet in
the history table, with `deleted = false`, whose envelopes are absent or
not tombstoned, merging in any order succeeds and yields, for every
envelope, the initial `(balance, target, monthTarget)` plus the
componentwise sum of the deltas of the events aimed at it. -/
theorem claimC2_order_independent_sum (s : Store) (dbNow : String)
    (l₁ l₂ : List Event) (hperm : l₁.Perm l₂)
    (hnodup : (l₁.map Event.id).Nodup)
    (hfresh : ∀ ev ∈ l₁, hasKey s.history ev.id = false)
    (hdel : ∀ ev ∈ l₁, ev.deleted = false)
    (henv : ∀ ev ∈ l₁, envOk s ev.envelopeId = true) :
    (mergeList dbNow s l₁).2 = true ∧ (mergeList dbNow s l₂).2 = true ∧
    ∀ id, projTriple (mergeList dbNow s l₁).1 id =
        projTriple s id + sumDeltas l₁ id ∧
      projTriple (mergeList dbNow s l₂).1 id =
        projTriple s id + sumDeltas l₁ id := by
  have h₁ := mergeList_ok dbNow l₁ s hnodup hfresh hdel henv
  have hnodup₂ : (l₂.map Event.id).Nodup :=
    ((hperm.map Event.id).nodup_iff).mp hnodup
  have h₂ := mergeList_ok dbNow l₂ s hnodup₂
    (fun ev hev => hfresh ev (hperm.mem_iff.mpr hev))
    (fun ev hev => hdel ev (hperm.mem_iff.mpr hev))
    (fun ev hev => henv ev (hperm.mem_iff.mpr hev))
  have hsum : ∀ id, sumDeltas l₂ id = sumDeltas l₁ id := by
    intro id
    exact (List.Perm.sum_eq
      ((hperm.filter (fun ev => ev.envelopeId == id)).map
        (fun ev => (ev.balance, ev.target, ev.monthTarget)))).symm
  exact ⟨h₁.1, h₂.1, fun id => ⟨h₁.2 id, by rw [h₂.2 id, hsum id]⟩⟩

/-- Claim C2 witness: two fresh events on envelope 1 merged in both orders
from the empty store; both orders succeed. -/
theorem claimC2_witness :
    (mergeList "d" sEmpty [evA, evB]).2 = true ∧
    (mergeList "d" sEmpty [evB, evA]).2 = true ∧
    projTriple (mergeList "d" sEmpty [evA, evB]).1 1 =
      projTriple sEmpty 1 + sumDeltas [evA, evB] 1 := by
  have h := claimC2_order_independent_sum sEmpty "d" [evA, evB] [evB, evA]
    (by decide) (by decide) (by decide) (by decide) (by decide)
  exact ⟨h.1, h.2.1, (h.2.2 1).1⟩

/-- Claim C3 counterexample: merging a fresh event (new id 11) aimed at
the tombstoned envelope 1 does not succeed and does not append a history
row — the call fails and the store is unchanged. -/
theorem claimC3_counterexample :
    evC3.envelopeId = 1 ∧ hasKey sDel.history evC3.id = false ∧
    (∃ r, lookupRow sDel.envelopes 1 = some r ∧ r.deleted = true) ∧
    DB.MergeEvent sDel "d" evC3 = (sDel, false) := by
  refine ⟨rfl, rfl, ⟨_, rfl, rfl⟩, ?_⟩
  decide

/-- Claim C3 (amended): merging any event aimed at a tombstoned envelope
FAILS — the filtered lookup in `envelopeWithTx` misses, the re-insert of
the existing primary key is rejected and the transaction rolls back — so
no new history row is recorded (existing history rows are of course
retained, since nothing deletes them). -/
theorem claimC3_merge_on_deleted_fails (s : Store) (dbNow : String)
    (e : Event) (r : EnvRow)
    (hk : lookupRow s.envelopes e.envelopeId = some r)
    (hdel : r.deleted = true) :
    DB.MergeEvent s dbNow e = (s, false) :=
  mergeEvent_deleted hk hdel

/-- Claim C3 witness: the amended statement evaluated at the concrete
tombstoned store. -/
theorem claimC3_witness : DB.MergeEvent sDel "d" evC3 = (sDel, false) :=
  claimC3_merge_on_deleted_fails sDel "d" evC3 ⟨"X", 7, 0, 0, true⟩
    (by decide) (by decide)

/-- Claim C5 counterexample: `evC1` carries the non-empty date
`2026-01-01`, yet the history row written by the merge carries the merging
peer's clock `2026-10-11`, not the carried date. -/
theorem claimC5_counterexample :
    evC1.date = "2026-01-01" ∧ evC1.date ≠ "" ∧
    (DB.MergeEvent sEmpty "2026-10-11" evC1).2 = true ∧
    lookupRow (DB.MergeEvent sEmpty "2026-10-11" evC1).1.history evC1.id =
      some (histOf evC1 "2026-10-11") ∧
    (histOf evC1 "2026-10-11").date ≠ evC1.date := by
  decide

/-- Claim C5 (amended): every successful merge stamps the inserted history
row with the merging peer's clock (`datetime('now')`), discarding any date
the event already carries; rows already in the history table are never
modified, so a stored date never changes afterwards. -/
theorem claimC5_date_stamped_by_merging_clock (s : Store) (dbNow : String)
    (e : Event) (hok : (DB.MergeEvent s dbNow e).2 = true) :
    lookupRow (DB.MergeEvent s dbNow e).1.history e.id =
      some (histOf e dbNow) ∧
    (histOf e dbNow).date = dbNow ∧
    ∀ k, k ≠ e.id →
      lookupRow (DB.MergeEvent s dbNow e).1.history k =
        lookupRow s.history k := by
  obtain ⟨hhist, hfresh⟩ := mergeEvent_success_inv hok
  refine ⟨?_, rfl, ?_⟩
  · rw [hhist]
    exact lookupRow_append_self _ hfresh
  · intro k hkne
    rw [hhist]
    exact lookupRow_append_ne _ hkne

/-- Claim C5 witness: the amended statement evaluated at the concrete
event `evC1`. -/
theorem claimC5_witness :
    lookupRow (DB.MergeEvent sEmpty "2026-10-11" evC1).1.history
      evC1.id = some (histOf evC1 "2026-10-11") :=
  (claimC5_date_stamped_by_merging_clock sEmpty "2026-10-11" evC1
    (by decide)).1

/-- Claim C9: a tombstoned envelope row makes `Envelope` (and every
operation that resolves an envelope through `envelopeWithTx`) fail with
the store unchanged: the deleted-filtered lookup misses and re-inserting
the same primary key is rejected, so no fresh row is created. -/
theorem claimC9_deleted_envelope_errors (s : Store) (id : Nat)
    (r : EnvRow) (hk : lookupRow s.envelopes id = some r)
    (hdel : r.deleted = true) :
    DB.Envelope s id = none ∧
    DB.envelopeWithTx s id = none ∧
    (∀ dbNow e, e.envelopeId = id → DB.MergeEvent s dbNow e = (s, false)) ∧
    (∀ gn dn δ c, DB.UpdateEnvelopeBalance s gn dn id δ c = (s, false)) ∧
    (∀ gn dn name nT nMT,
      DB.UpdateEnvelopeMeta s gn dn id name nT nMT = (s, none, false)) ∧
    (∀ gn dn im, DB.Spread s gn dn im id = (s, false)) := by
  have hwtx : DB.envelopeWithTx s id = none := by
    simp [DB.envelopeWithTx, hk, hdel]
  have henv : DB.Envelope s id = none := by
    simp [DB.Envelope, hwtx]
  refine ⟨henv, hwtx, ?_, ?_, ?_, ?_⟩
  · intro dbNow e he
    have hk' : lookupRow s.envelopes e.envelopeId = some r := by
      rw [he]
      exact hk
    exact mergeEvent_deleted hk' hdel
  · intro gn dn δ c
    simp [DB.UpdateEnvelopeBalance, henv]
  · intro gn dn name nT nMT
    simp [DB.UpdateEnvelopeMeta, henv]
  · intro gn dn im
    simp [DB.Spread, henv]

/-- Claim C9 witness: the failure evaluated at the concrete tombstoned
store. -/
theorem claimC9_witness :
    DB.Envelope sDel 1 = none ∧
    DB.UpdateEnvelopeBalance sDel "g" "d" 1 5 "x" = (sDel, false) := by
  have h := claimC9_deleted_envelope_errors sDel 1 ⟨"X", 7, 0, 0, true⟩
    (by decide) (by decide)
  exact ⟨h.1, h.2.2.2.1 "g" "d" 5 "x"⟩

/-- Claim C10: a `Spread` that returns without error leaves the sum of
the `balance` column over all envelope rows unchanged — each recipient's
credit `int(amount)` is matched by the debit `int(-amount)` of the same
double on the source (`ftrunc_fneg`). Stores with a duplicate primary key
are unreachable for the SQL engine and excluded by `hnd`. -/
theorem claimC10_spread_preserves_total (s : Store) (gn dn : String)
    (im : String → Bool) (src : Nat)
    (hnd : (s.envelopes.map Prod.fst).Nodup)
    (hok : (DB.Spread s gn dn im src).2 = true) :
    sumBal (DB.Spread s gn dn im src).1 = sumBal s := by
  cases henv : DB.Envelope s src with
  | none =>
    simp only [DB.Spread, henv] at hok
    simp at hok
  | some toSpread =>
    simp only [DB.Spread, henv] at hok ⊢
    exact spreadLoop_sumBal gn dn src toSpread.balance toSpread.name _ _ s
      hnd hok

/-- Claim C10 witness: the spread scenario `sM` succeeds and its total
balance (1000 cents) is preserved. -/
theorem claimC10_witness :
    sumBal (DB.Spread sM "g" "d" (fun _ => false) 0).1 = sumBal sM ∧
    sumBal sM = 1000 := by
  constructor
  · exact claimC10_spread_preserves_total sM "g" "d" (fun _ => false) 0
      (by decide) (by decide)
  · decide


/-- Claim C4 counterexample: envelope 1 of `sC4` has target 500; calling
`UpdateEnvelopeMeta` with the unchanged name and the unchanged absolute
target 500 has both computed deltas zero — by the claim it must be a
no-op — yet the code constructs and merges an event, growing the history
table. -/
theorem claimC4_counterexample :
    (∃ r, lookupRow sC4.envelopes 1 = some r ∧ "A" = r.name ∧
      (500 : Int) - r.target = 0 ∧ (0 : Int) - r.monthtarget = 0) ∧
    (DB.UpdateEnvelopeMeta sC4 "g" "d" 1 "A" 500 0).2.1.isSome = true ∧
    (DB.UpdateEnvelopeMeta sC4 "g" "d" 1 "A" 500 0).1.history.length =
      sC4.history.length + 1 := by
  refine ⟨⟨⟨"A", 0, 500, 0, false⟩, by decide, by decide, by decide,
    by decide⟩, by decide, by decide⟩

/-- Claim C4 witness: the genuine no-op case (unchanged name, both
parameters zero) evaluated on `sC4`. -/
theorem claimC4_witness :
    DB.UpdateEnvelopeMeta sC4 "g" "d" 1 "A" 0 0 = (sC4, none, true) :=
  (updateEnvelopeMeta_spec sC4 "g" "d" 1 "A" 0 0 ⟨"A", 0, 500, 0, false⟩
    (by decide) (by decide)).1 (by decide)

/-- Claim C6 counterexample: in the spread scenario `sM` (source balance
1000, month targets 10/20/30, T = 60) envelope 1 receives 166 cents —
`int(1000 * (float64(10)/float64(60)))` — while the claim's
`round(1000·10/60)` is 167. -/
theorem claimC6_counterexample :
    (DB.Spread sM "g" "d" (fun _ => false) 0).2 = true ∧
    spreadTotal sM (fun _ => false) 0 = 60 ∧
    balOf (DB.Spread sM "g" "d" (fun _ => false) 0).1 1 = 166 ∧
    roundQ ((1000 : ℚ) * ((10 : ℚ) / (60 : ℚ))) = 167 ∧
    (166 : Int) ≠ 167 := by
  refine ⟨by decide, by decide, by decide, ?_, by decide⟩
  unfold roundQ
  have hq : (1000 : ℚ) * ((10 : ℚ) / (60 : ℚ)) + 1 / 2 =
      ((1003 : ℤ) : ℚ) / ((6 : ℕ) : ℚ) := by
    push_cast
    norm_num
  rw [hq, Rat.floor_intCast_div_natCast]
  decide

/-- Claim C6 (amended): for a store with a present, non-deleted source
envelope and positive total month target T over the other non-deleted
envelopes, `Spread` moves into each non-deleted envelope with
`monthTarget ≠ 0` exactly
`int(float64(balance_source) * (float64(monthTarget) / float64(T)))`
cents — the toward-zero truncation of the double-rounded product, not the
rounded value and not the exact truncated quotient —, debits the source
by the total of those credits, and moves nothing for envelopes with
`monthTarget = 0` (or tombstoned rows). -/
theorem claimC6_spread_truncates (s : Store) (gn dn : String)
    (im : String → Bool) (src : Nat) (rs : EnvRow)
    (hk : lookupRow s.envelopes src = some rs) (hdel : rs.deleted = false)
    (hnd : (s.envelopes.map Prod.fst).Nodup)
    (hT : 0 < spreadTotal s im src) :
    (DB.Spread s gn dn im src).2 = true ∧
    (∀ x r, x ≠ src → lookupRow s.envelopes x = some r →
      r.deleted = false → r.monthtarget ≠ 0 →
      balOf (DB.Spread s gn dn im src).1 x =
        r.balance + ftrunc (fmul (fofInt rs.balance)
          (fdiv (fofInt r.monthtarget) (fofInt (spreadTotal s im src))))) ∧
    (∀ x r, x ≠ src → lookupRow s.envelopes x = some r →
      (r.monthtarget = 0 ∨ r.deleted = true) →
      balOf (DB.Spread s gn dn im src).1 x = r.balance) ∧
    balOf (DB.Spread s gn dn im src).1 src =
      rs.balance - (((DB.AllEnvelopes s im).filter
        (fun e => e.id ≠ src ∧ e.monthTarget ≠ 0)).map
        (fun e => ftrunc (fmul (fofInt rs.balance)
          (fdiv (fofInt e.monthTarget)
            (fofInt (spreadTotal s im src)))))).sum :=
  spread_spec s gn dn im src rs hk hdel hnd hT

/-- Claim C6 witness: the amended statement evaluated on `sM`: the spread
succeeds and envelope 2 (month target 20) receives 333 cents,
`int(1000 * (float64(20)/float64(60)))`. -/
theorem claimC6_witness :
    (DB.Spread sM "g" "d" (fun _ => false) 0).2 = true ∧
    balOf (DB.Spread sM "g" "d" (fun _ => false) 0).1 2 = 333 := by
  have h := claimC6_spread_truncates sM "g" "d" (fun _ => false) 0
    ⟨"S", 1000, 0, 0, false⟩ (by decide) (by decide) (by decide) (by decide)
  refine ⟨h.1, ?_⟩
  have hb := h.2.1 2 ⟨"B", 0, 0, 20, false⟩ (by decide) (by decide)
    (by decide) (by decide)
  rw [hb]
  decide

/-- Claim C7: a message is accepted by a friend only when its sequence
number strictly exceeds that of the last accepted message: if `m1` is
accepted, every message of `ms` is then rejected, and `m2` is accepted
next, then `m1.Seq < m2.Seq` (a fresh friend accepts anything). -/
theorem claimC7_seq_strictly_increasing (f : Friend) (n1 : Nat)
    (m1 : BusMessage) (ms : List (Nat × BusMessage)) (n2 : Nat)
    (m2 : BusMessage) (h1 : (f.handleMessage n1 m1).2 = true)
    (hrej : ∀ p ∈ ms,
      (((f.handleMessage n1 m1).1).handleMessage p.1 p.2).2 = false)
    (h2 : (((f.handleMessage n1 m1).1.handleAll ms).handleMessage
      n2 m2).2 = true) :
    m1.Seq < m2.Seq := by
  have hmsg : (f.handleMessage n1 m1).1.msg = some m1 :=
    handleMessage_accept_msg h1
  rw [handleAll_id hrej] at h2
  exact handleMessage_accept_lt hmsg h2

/-- Claim C7 witness: a fresh friend accepts sequence 1, rejects a replay
of sequence 1, then accepts sequence 2; the theorem yields 1 < 2. -/
theorem claimC7_witness :
    ((NewFriend "bob" 0).handleMessage 1 mA).2 = true ∧ mA.Seq < mC.Seq :=
  ⟨by decide, claimC7_seq_strictly_increasing (NewFriend "bob" 0) 1 mA
    [(2, mB)] 3 mC (by decide) (by decide) (by decide)⟩

/-- Claim C8 counterexample: `bob` sits in the oldfriends map of `pmC8`
and is absent from friends; a valid broadcast message from `bob` is
dispatched, yet the oldfriends entry is NOT removed — the map is
untouched, contradicting the claimed removal. -/
theorem claimC8_counterexample :
    mA.From ≠ pmC8.nick ∧ mA.To = "*" ∧
    lookupStr pmC8.friends mA.From = none ∧
    lookupStr pmC8.oldfriends "bob" = some (NewFriend "bob" 0) ∧
    (dispatchStep (fun _ => evC3) pmC8 5 "d" mA).oldfriends =
      pmC8.oldfriends := by
  decide

/-- Claim C8 (amended): when the inbound dispatch task receives a valid
message (sender is not us, addressed to us or broadcast) from a sender
absent from the friends map, it creates a new Friend entry (which then
absorbs the message) and sets `needFullSync`; the oldfriends map is left
untouched. -/
theorem claimC8_new_sender_registered (decode : String → Event)
    (pm : PMState) (now : Nat) (dbNow : String) (m : BusMessage)
    (hfrom : m.From ≠ pm.nick) (hto : m.To = pm.nick ∨ m.To = "*")
    (habs : lookupStr pm.friends m.From = none) :
    lookupStr (dispatchStep decode pm now dbNow m).friends m.From =
      some ⟨m.From, some m, now⟩ ∧
    (dispatchStep decode pm now dbNow m).oldfriends = pm.oldfriends ∧
    (dispatchStep decode pm now dbNow m).needFullSync = true := by
  have hto' : ¬(m.To ≠ pm.nick ∧ m.To ≠ "*") := by
    rcases hto with h | h
    · intro hc
      exact hc.1 h
    · intro hc
      exact hc.2 h
  simp only [dispatchStep, if_neg hfrom, if_neg hto', habs,
    Option.getD_none, Option.isNone_none, if_true, NewFriend,
    Friend.handleMessage]
  refine ⟨?_, by trivial, by trivial⟩
  exact lookupStr_updateStr_self _ (lookupStr_append_self _ habs)

/-- Claim C8 witness: the amended statement evaluated at `pmC8` and the
broadcast message `mA` from the unknown sender `bob`. -/
theorem claimC8_witness :
    lookupStr (dispatchStep (fun _ => evC3) pmC8 5 "d" mA).friends
      "bob" = some ⟨"bob", some mA, 5⟩ ∧
    (dispatchStep (fun _ => evC3) pmC8 5 "d" mA).needFullSync = true := by
  have h := claimC8_new_sender_registered (fun _ => evC3) pmC8 5 "d" mA
    (by decide) (Or.inr rfl) (by decide)
  exact ⟨h.1, h.2.2⟩

end Envelopes
